import Mathlib

/-!
Verification development for the `music_player.py` playlist manager.

Shallow embedding conventions:
* Python `str` is modelled as `List Char` (`Str`); `str.lower()` is the
  character-wise `Char.toLower` map.
* Python dicts (`TrieNode.children`, `play_counts`, `node_by_title`) are
  modelled as insertion-ordered association lists: an update of an existing
  key rewrites it in place, a new key is appended at the end, matching
  CPython's insertion-ordered dict semantics.
* Doubly-linked-list nodes are identified with their position in the build
  order: `dll.append` always appends at the tail and `from_nodes` is never
  called, so in every reachable state the list structure is exactly its
  in-order node list.  `next node` is `index + 1`, `dll.head` is index `0`.
  Object identity (`is`) becomes index equality.
* `pygame.mixer.music` (the external playback session) is modelled by the
  two booleans the orchestration reads: `paused` (set by the wrapper) and
  `busy` (`get_busy`, true while a stream is loaded and neither finished
  nor stopped).  Whether `load_and_play` succeeds is an external fact about
  the file, modelled by an oracle `ok : Str → Bool` on paths.
* `random.choice l` is modelled as `l[rnd % l.length]` for an externally
  supplied seed `rnd : Nat`: every index is a possible outcome and a
  uniformly distributed seed yields a uniform pick.
* tk widgets are out of scope except for the observable texts the claims
  mention: the status-bar text is a field of the state, `messagebox` pop-ups
  are returned as a Boolean "an error/info box was shown" flag.
-/

namespace MusicPlayer

/-- Python strings, modelled as their character lists. -/
abbrev Str := List Char

/-- Turn a Lean string literal into the `Str` model. -/
def str (s : String) : Str := s.data

/-- `str.lower()`, character-wise. -/
def lowerStr (s : Str) : Str := s.map Char.toLower

/-! ### Trie (`TrieNode`, `Trie` in the source) -/

/-- `TrieNode`: a children dict (insertion-ordered assoc list) and the list
of titles ending at this node (`self.ends`). -/
inductive TrieNode where
  | mk : List (Char × TrieNode) → List Str → TrieNode

/-- `node.children`. -/
def TrieNode.children : TrieNode → List (Char × TrieNode)
  | .mk c _ => c

/-- `node.ends`. -/
def TrieNode.ends : TrieNode → List Str
  | .mk _ e => e

/-- Dict lookup `node.children[ch]` / `ch in node.children`. -/
def lookupChild : List (Char × TrieNode) → Char → Option TrieNode
  | [], _ => none
  | (c', t) :: rest, c => if c' = c then some t else lookupChild rest c

/-- Dict write `node.children[ch] = t`: overwrite in place, else append. -/
def setChild : List (Char × TrieNode) → Char → TrieNode → List (Char × TrieNode)
  | [], c, t => [(c, t)]
  | (c', t') :: rest, c, t =>
    if c' = c then (c, t) :: rest else (c', t') :: setChild rest c t

/-- The capped append performed at the terminal node of `Trie.insert`:
`if word not in node.ends: node.ends.append(word); if len > 20: pop(0)`. -/
def fifoPush (e : List Str) (w : Str) : List Str :=
  if w ∈ e then e
  else if 20 < (e ++ [w]).length then (e ++ [w]).drop 1 else e ++ [w]

/-- `Trie.insert`, descending over the lowercased character list `cs` of the
word, carrying the original-cased word `w`. -/
def insertAux (n : TrieNode) : List Char → Str → TrieNode
  | [], w => .mk n.children (fifoPush n.ends w)
  | c :: cs, w =>
    let child := (lookupChild n.children c).getD (.mk [] [])
    .mk (setChild n.children c (insertAux child cs w)) n.ends

/-- `Trie`: just a root node. -/
structure Trie where
  root : TrieNode

/-- `Trie.insert(word)`. -/
def Trie.insert (t : Trie) (w : Str) : Trie :=
  ⟨insertAux t.root (lowerStr w) w⟩

/-- The descent loop at the top of `prefix_search`: follow one child per
character, `none` when a character has no matching child. -/
def findNode (n : TrieNode) : List Char → Option TrieNode
  | [] => some n
  | c :: cs =>
    match lookupChild n.children c with
    | none => none
    | some t => findNode t cs

/-- The node values of the children dict, in insertion order
(`node.children.items()`). -/
def childNodes (n : TrieNode) : List TrieNode := n.children.map Prod.snd

/-- Size measure used only for termination of the queue recursions. -/
def TrieNode.totalSize : TrieNode → Nat
  | .mk children _ => 1 + childrenSize children
where
  childrenSize : List (Char × TrieNode) → Nat
    | [] => 0
    | (_, t) :: rest => TrieNode.totalSize t + childrenSize rest

/-- Queue measure for the BFS loops. -/
def queueSize (q : List TrieNode) : Nat := (q.map TrieNode.totalSize).sum

theorem childrenSize_eq (l : List (Char × TrieNode)) :
    TrieNode.totalSize.childrenSize l = (l.map (fun p => p.2.totalSize)).sum := by
  induction l with
  | nil => rfl
  | cons p rest ih => cases p; simp [TrieNode.totalSize.childrenSize, ih]

theorem totalSize_eq (n : TrieNode) :
    n.totalSize = 1 + queueSize (childNodes n) := by
  cases n with
  | mk ch e =>
    simp [TrieNode.totalSize, childrenSize_eq, queueSize, childNodes,
      TrieNode.children, List.map_map, Function.comp_def]

theorem queueSize_append (q r : List TrieNode) :
    queueSize (q ++ r) = queueSize q + queueSize r := by
  simp [queueSize]

theorem queueSize_cons (n : TrieNode) (q : List TrieNode) :
    queueSize (n :: q) = n.totalSize + queueSize q := by
  simp [queueSize]

/-- The BFS collection loop of `prefix_search`:
`while q and len(results) < limit: n = q.pop(0); results.extend(n.ends);`
`for ch, child in n.children.items(): q.append(child)`.
(The `prefix + ch` strings carried in the Python queue are never read.)
The loop is written with a structural fuel so that it evaluates inside the
kernel; popping a node shrinks `queueSize` by exactly one, so fuel
`queueSize q` is exact and never runs out (`bfsCollect_nil` and
`bfsCollect_cons` below recover the literal loop equations). -/
def bfsGo (limit : Nat) : Nat → List TrieNode → List Str → List Str
  | _, [], acc => acc
  | 0, _ :: _, acc => acc
  | fuel + 1, n :: q, acc =>
    if acc.length < limit then bfsGo limit fuel (q ++ childNodes n) (acc ++ n.ends)
    else acc

def bfsCollect (limit : Nat) (q : List TrieNode) (acc : List Str) : List Str :=
  bfsGo limit (queueSize q) q acc

/-- The dedupe loop at the bottom of `prefix_search`:
`for w in results: if w not in seen: out.append(w); if len(out) >= limit: break`.
`seen` is always exactly the set of elements of `out`. -/
def dedupe (limit : Nat) : List Str → List Str → List Str
  | [], out => out
  | w :: ws, out =>
    let out' := if w ∈ out then out else out ++ [w]
    if limit ≤ out'.length then out' else dedupe limit ws out'

/-- `Trie.prefix_search(prefix, limit)`. -/
def Trie.prefix_search (t : Trie) (p : Str) (limit : Nat) : List Str :=
  match findNode t.root (lowerStr p) with
  | none => []
  | some n => dedupe limit (bfsCollect limit [n] []) []

/-- The empty trie `Trie()`. -/
def emptyTrie : Trie := ⟨.mk [] []⟩

/-- `Trie()` followed by `insert` for each word, left to right. -/
def buildTrie (ws : List Str) : Trie := ws.foldl Trie.insert emptyTrie

/-! ### Engine (`MusicEngine` over `pygame.mixer.music`) -/

/-- The engine state the orchestration observes: the wrapper's `paused` flag
and the session's `get_busy()` signal (true while a stream is loaded and
neither finished nor stopped).  Volume handling is untouched by the claims
and omitted. -/
structure Engine where
  paused : Bool
  busy : Bool
deriving DecidableEq

/-- `load_and_play` (success case): a stream starts playing. -/
def engineLoadPlay (e : Engine) : Engine := { e with paused := false, busy := true }

/-- `MusicEngine.pause`. -/
def enginePause (e : Engine) : Engine := { e with paused := true }

/-- `MusicEngine.resume`. -/
def engineResume (e : Engine) : Engine := { e with paused := false }

/-- `MusicEngine.stop`: `pygame.mixer.music.stop(); self.paused = False`.
After a stop `get_busy()` is false. -/
def engineStop (e : Engine) : Engine := { e with paused := false, busy := false }

/-! ### Application state (`MusicPlayerApp`) -/

/-- A song: the source's `Node` dataclass minus its `prev`/`next` links,
which in this embedding are the adjacent positions in `tracks`. -/
structure Track where
  title : Str
  path : Str
deriving DecidableEq

/-- The orchestration state.  `tracks` is the doubly linked list in order
(node = index), `history_stack` and `current` hold node indices,
`play_counts` and `node_by_title` are insertion-ordered dicts, `status` is
the status-bar text. -/
structure AppState where
  tracks : List Track
  history_stack : List Nat
  play_counts : List (Str × Nat)
  trie : Trie
  shuffle_on : Bool
  current : Option Nat
  node_by_title : List (Str × Nat)
  engine : Engine
  status : Str

/-- The state after `MusicPlayerApp.__init__`. -/
def init : AppState where
  tracks := []
  history_stack := []
  play_counts := []
  trie := emptyTrie
  shuffle_on := false
  current := none
  node_by_title := []
  engine := { paused := false, busy := false }
  status := str "Load a folder to begin…"

/-- Dict update `d[k] = d.get(k, 0) + 1` (the play-count bookkeeping in
`play_node`): rewrite an existing entry in place, else append at 1. -/
def bump (m : List (Str × Nat)) (t : Str) : List (Str × Nat) :=
  if m.any (fun p => decide (p.1 = t)) then
    m.map (fun p => if p.1 = t then (p.1, p.2 + 1) else p)
  else m ++ [(t, 1)]

/-- Dict update `d[k] = v` (the `node_by_title` registry): overwrite in
place, else append (last-loaded wins on duplicate titles). -/
def dictInsert (m : List (Str × Nat)) (k : Str) (v : Nat) : List (Str × Nat) :=
  if m.any (fun p => decide (p.1 = k)) then
    m.map (fun p => if p.1 = k then (p.1, v) else p)
  else m ++ [(k, v)]

/-- `d.get(k, 0)`. -/
def countOf (m : List (Str × Nat)) (t : Str) : Nat :=
  ((m.find? (fun p => decide (p.1 = t))).map Prod.snd).getD 0

/-- `MusicPlayerApp.play_node(node)`.  Returns the new state and whether a
playback-error box was shown.  `ok path` is the external fact "the engine's
`load_and_play(path)` does not raise".  On failure the handler shows the
error and returns before any state is touched. -/
def play_node (ok : Str → Bool) (st : AppState) : Option Nat → AppState × Bool
  | none => (st, false)
  | some i =>
    match st.tracks[i]? with
    | none => (st, false)
    | some tr =>
      if ok tr.path then
        ({ st with
            engine := engineLoadPlay st.engine,
            play_counts := bump st.play_counts tr.title,
            current := some i,
            status := str "Playing: " ++ tr.title }, false)
      else (st, true)

/-- The engine command a `_toggle_pause` call issues. -/
inductive EngCmd where
  | pause
  | resume
deriving DecidableEq

/-- `MusicPlayerApp._toggle_pause`.  Also returns which engine command was
issued. -/
def toggle_pause (st : AppState) : AppState × EngCmd :=
  if st.engine.busy && !st.engine.paused then
    ({ st with engine := enginePause st.engine, status := str "Paused" }, .pause)
  else
    ({ st with engine := engineResume st.engine, status := str "Resumed" }, .resume)

/-- `MusicPlayerApp.stop_song`. -/
def stop_song (st : AppState) : AppState :=
  { st with engine := engineStop st.engine, status := str "Stopped" }

/-- `random.choice l`, modelled as the uniform pick `l[rnd % len(l)]` for an
external seed `rnd`. -/
def choiceModel (rnd : Nat) (l : List Nat) : Nat := l.getD (rnd % l.length) 0

/-- `MusicPlayerApp._random_next`.  `nodes = dll.to_list()` is the index
list `range len`; `n is not self.current` is index inequality. -/
def random_next (rnd : Nat) (st : AppState) : Option Nat :=
  let nodes := List.range st.tracks.length
  if nodes.isEmpty then none
  else
    match st.current with
    | none => some (choiceModel rnd nodes)
    | some c =>
      if nodes.length = 1 then none
      else
        let choices := nodes.filter (fun n => decide (n ≠ c))
        if choices.isEmpty then none else some (choiceModel rnd choices)

/-- The `nxt` computation at the top of `next_song`:
`self._random_next()` under shuffle, else
`self.current.next if self.current else self.dll.head`. -/
def advance_target (rnd : Nat) (st : AppState) : Option Nat :=
  if st.shuffle_on then random_next rnd st
  else
    match st.current with
    | some c => if c + 1 < st.tracks.length then some (c + 1) else none
    | none => if st.tracks.isEmpty then none else some 0

/-- `MusicPlayerApp.next_song`. -/
def next_song (rnd : Nat) (ok : Str → Bool) (st : AppState) : AppState × Bool :=
  match advance_target rnd st with
  | some j =>
    let st' :=
      match st.current with
      | some c => { st with history_stack := st.history_stack ++ [c] }
      | none => st
    play_node ok st' (some j)
  | none => ({ st with status := str "End of playlist" }, false)

/-- `MusicPlayerApp.prev_song`: pop the back stack (before playing — a
failed play does not restore the popped entry). -/
def prev_song (ok : Str → Bool) (st : AppState) : AppState × Bool :=
  match st.history_stack.getLast? with
  | some p =>
    play_node ok { st with history_stack := st.history_stack.dropLast } (some p)
  | none => ({ st with status := str "No previous song" }, false)

/-- `MusicPlayerApp._toggle_shuffle`. -/
def toggle_shuffle (st : AppState) : AppState :=
  let sh := !st.shuffle_on
  { st with
      shuffle_on := sh,
      status := if sh then str "Shuffle ON" else str "Shuffle OFF" }

/-- One tick of `MusicPlayerApp._poll_playback` (the body of the 500 ms
self-rescheduling poll).  Returns the new state and the error flag of any
`next_song` it invoked. -/
def poll_tick (rnd : Nat) (ok : Str → Bool) (st : AppState) : AppState × Bool :=
  if !st.engine.paused && st.current.isSome then
    if !st.engine.busy then next_song rnd ok st
    else (st, false)
  else (st, false)

/-- The guard under which a poll tick invokes `next_song`. -/
def poll_fires (st : AppState) : Bool :=
  !st.engine.paused && st.current.isSome && !st.engine.busy

/-- Code-point lexicographic `≤` on character lists (Python string
comparison). -/
def lexLe : List Char → List Char → Bool
  | [], _ => true
  | _ :: _, [] => false
  | a :: as, b :: bs =>
    if a.toNat < b.toNat then true
    else if b.toNat < a.toNat then false
    else lexLe as bs

/-- The sort key comparison of `sorted(songs, key=lambda x: x[0].lower())`. -/
def trackLe (a b : Track) : Bool := lexLe (lowerStr a.title) (lowerStr b.title)

def orderedInsert (x : Track) : List Track → List Track
  | [] => [x]
  | y :: ys => if trackLe x y then x :: y :: ys else y :: orderedInsert x ys

/-- Python's `sorted(songs, key=lambda x: x[0].lower())`.  `sorted` is the
stable sort by this key; every stable sort by one total preorder produces
the same list, and stable insertion sort is used here because it is
structurally recursive (so it evaluates inside the kernel). -/
def sortTracks : List Track → List Track
  | [] => []
  | x :: xs => orderedInsert x (sortTracks xs)

/-- One iteration of the fill loop of `load_folder`: append the song to the
playlist (`dll.append`, whose returned node is the next index, i.e. the
number of tracks already appended), insert its title into the trie, and
register title → node. -/
def loadStep (s : AppState) (tr : Track) : AppState :=
  { s with
      tracks := s.tracks ++ [tr],
      trie := s.trie.insert tr.title,
      node_by_title := dictInsert s.node_by_title tr.title s.tracks.length }

/-- `MusicPlayerApp.load_folder` from the point where the folder scan has
produced the `songs` list of (title, path) pairs (the scan itself is the
external file system).  Returns the new state and whether the
"No audio" info box was shown.  The reset block stops the engine and clears
`dll`, `history_stack`, `trie`, `node_by_title` and `current` — but not
`play_counts` — and the loop then appends every sorted song to the list,
the trie and the registry. -/
def load_folder (st : AppState) (songs : List Track) : AppState × Bool :=
  if songs.isEmpty then (st, true)
  else
    let sortedSongs := sortTracks songs
    let st0 : AppState :=
      { st with
          engine := engineStop st.engine,
          tracks := [],
          history_stack := [],
          trie := emptyTrie,
          node_by_title := [],
          current := none }
    let st1 := sortedSongs.foldl loadStep st0
    ({ st1 with
        status := str "Loaded " ++ (toString sortedSongs.length).data ++ str " songs" },
     false)

/-- The title → node-index registry built from a song list alone, appending
from index `i` on into `m` (the shape the `load_folder` fill loop gives
`node_by_title`). -/
def regFrom (m : List (Str × Nat)) (i : Nat) : List Track → List (Str × Nat)
  | [] => m
  | tr :: rest => regFrom (dictInsert m tr.title i) (i + 1) rest

/-! ### Top played (`show_top_played`) -/

/-- tuple comparison on `(-cnt, title)`: `p` comes out of the heap before
`q` iff its count is larger, or equal with a code-point-smaller title. -/
def lexLt (a b : List Char) : Bool := lexLe a b && !lexLe b a

def beats (p q : Str × Nat) : Bool :=
  q.2 < p.2 || (decide (p.2 = q.2) && lexLt p.1 q.1)

/-- The minimum of the heap `[(-cnt, title) ...]` (what `heappop` returns),
keeping the earlier entry when neither strictly beats the other. -/
def bestOf : List (Str × Nat) → Option (Str × Nat)
  | [] => none
  | p :: rest =>
    some (match bestOf rest with
          | none => p
          | some q => if beats q p then q else p)

/-- Remove the first occurrence of an entry (what a heap pop does to the
multiset of remaining entries). -/
def eraseEntry : List (Str × Nat) → (Str × Nat) → List (Str × Nat)
  | [], _ => []
  | x :: xs, b => if x = b then xs else x :: eraseEntry xs b

/-- `for _ in range(k): heappop(heap)` on the heapified play-count items:
`k` extractions of the minimum.  `heapq` guarantees each pop returns a
minimal element of what remains. -/
def popK : Nat → List (Str × Nat) → List (Str × Nat)
  | 0, _ => []
  | k + 1, l =>
    match bestOf l with
    | none => []
    | some b => b :: popK k (eraseEntry l b)

/-- `MusicPlayerApp.show_top_played(top_k)`: `None` when the ledger is empty
(the "No play history yet" box); otherwise the ranked `(title, count)` rows
shown in the pop-up. The ledger itself is only read (the heap is a fresh
list). -/
def show_top_played (st : AppState) (top_k : Nat) : AppState × Option (List (Str × Nat)) :=
  if st.play_counts.isEmpty then (st, none)
  else (st, some (popK (min top_k st.play_counts.length) st.play_counts))

/-- `recordPlay` iterated `n` times on title `t` (the ledger update of
`play_node`, success path). -/
def bumpN (m : List (Str × Nat)) (t : Str) : Nat → List (Str × Nat)
  | 0 => m
  | n + 1 => bump (bumpN m t n) t

/-! ### Specification-side definitions

The next definitions are written from the spec's words (§4.2: breadth-first,
level-by-level collection, dedup preserving first-seen order, bounded by
`limit`), to be compared with the queue-based loop of `prefix_search`.
Auxiliary node-order notions used to relate the two are also here. -/

/-- The nodes a queue-based BFS visits, in visiting order (same exact-fuel
device as `bfsGo`; `bfsOrder_nil` and `bfsOrder_cons` below recover the
queue equations). -/
def bfsOrderGo : Nat → List TrieNode → List TrieNode
  | _, [] => []
  | 0, _ :: _ => []
  | fuel + 1, n :: q => n :: bfsOrderGo fuel (q ++ childNodes n)

def bfsOrder (q : List TrieNode) : List TrieNode := bfsOrderGo (queueSize q) q

/-- Walk a node list in order, appending each node's stored titles, until
`limit` results are collected or the list is exhausted. -/
def collectWhile (limit : Nat) : List TrieNode → List Str → List Str
  | [], acc => acc
  | n :: ns, acc =>
    if acc.length < limit then collectWhile limit ns (acc ++ n.ends) else acc

/-- The levels of the forest rooted at `q`: the roots, then all their
children, level by level. -/
theorem queueSize_flatMap_le (q : List TrieNode) :
    queueSize (q.flatMap childNodes) ≤ queueSize q := by
  induction q with
  | nil => simp [queueSize]
  | cons m qs ih =>
    simp only [List.flatMap_cons, queueSize_append, queueSize_cons]
    have := totalSize_eq m
    omega

def levels (q : List TrieNode) : List (List TrieNode) :=
  if q.isEmpty then []
  else q :: levels (q.flatMap childNodes)
  termination_by queueSize q
  decreasing_by
    cases q with
    | nil => simp_all
    | cons n qs =>
      simp only [List.flatMap_cons, queueSize_append, queueSize_cons, totalSize_eq]
      have := queueSize_flatMap_le qs
      omega

/-- First-occurrence deduplication, preserving first-seen order, starting
from an already collected `acc`. -/
def accDedup (acc : List Str) : List Str → List Str
  | [] => acc
  | w :: ws => accDedup (if w ∈ acc then acc else acc ++ [w]) ws

/-- `search(prefix, limit)` as the spec words it: descend by lowercased
characters (empty on a missing child), collect the reached node's titles and
then its descendants' titles level by level until `limit` results are
collected or the subtree is exhausted, dedupe preserving first-seen order,
return at most `limit` results. -/
def specSearch (t : Trie) (p : Str) (limit : Nat) : List Str :=
  match findNode t.root (lowerStr p) with
  | none => []
  | some n => (accDedup [] (collectWhile limit (levels [n]).flatten [])).take limit

/-- All nodes of the subtree rooted at a node (root first). -/
def subtree : TrieNode → List TrieNode
  | .mk ch e => .mk ch e :: subtreeList ch
where
  subtreeList : List (Char × TrieNode) → List TrieNode
    | [] => []
    | (_, t) :: rest => subtree t ++ subtreeList rest

/-- The number of stored titles in the subtree reached by `p` — for a trie
built by `insert` this is the number of titles matching the prefix `p`. -/
def matchesOf (t : Trie) (p : Str) : Nat :=
  match findNode t.root (lowerStr p) with
  | none => 0
  | some n => ((bfsOrder [n]).map (fun m => m.ends.length)).sum

/-- What the `ends` list at the node reached by key `p` looks like after a
sequence of inserts: a left fold of the capped FIFO append over the words
whose lowercasing is `p`. -/
def fifoFold (ws : List Str) (p : List Char) (e : List Str) : List Str :=
  ws.foldl (fun acc w => if lowerStr w = p then fifoPush acc w else acc) e

/-- `ends` of the node reached by key `p` (empty when no node is reached). -/
def endsAt (n : TrieNode) (p : List Char) : List Str :=
  match findNode n p with
  | none => []
  | some m => m.ends

/-! ### Concrete data for witnesses and counterexamples -/

/-- An oracle under which every load succeeds. -/
def okAll : Str → Bool := fun _ => true

/-- An oracle under which every load raises. -/
def okNone : Str → Bool := fun _ => false

/-- A two-song folder scan result. -/
def songsAB : List Track :=
  [⟨str "b", str "/m/b.mp3"⟩, ⟨str "a", str "/m/a.mp3"⟩]

/-- A one-song folder scan result. -/
def songsOne : List Track := [⟨str "solo", str "/m/solo.ogg"⟩]

/-- Reachable state: fresh app, `songsAB` loaded. -/
def stLoaded : AppState := (load_folder init songsAB).1

/-- Reachable state: `stLoaded`, then one `next_song` (no current track yet,
so it plays the head track "a"). -/
def stPlaying : AppState := (next_song 0 okAll stLoaded).1

/-- Reachable state: `stPlaying`, then the user presses Stop. -/
def stStopped : AppState := stop_song stPlaying

/-- Reachable state: one song loaded and shuffle toggled on, nothing played
yet. -/
def stOneShuffle : AppState := toggle_shuffle (load_folder init songsOne).1

/-- 21 distinct case-variants of the same five-letter word, first variant
first.  All end at the same trie node, whose capped list holds 20 titles. -/
def evictWords : List Str :=
  [str "AAAAA", str "aAAAA", str "AaAAA", str "AAaAA", str "AAAaA",
   str "AAAAa", str "aaAAA", str "aAaAA", str "aAAaA", str "aAAAa",
   str "AaaAA", str "AaAaA", str "AaAAa", str "AAaaA", str "AAaAa",
   str "AAAaa", str "aaaAA", str "aaAaA", str "aaAAa", str "aAaaA",
   str "aaaaa"]

/-- Reachable state: `stOneShuffle` after one `next_song` (plays the single
track, so `current = some 0` with a one-track sequence and shuffle on). -/
def stOnePlaying : AppState := (next_song 0 okAll stOneShuffle).1

/-! ## Theorems -/

theorem queueSize_pop (n : TrieNode) (q : List TrieNode) :
    queueSize (n :: q) = queueSize (q ++ childNodes n) + 1 := by
  rw [queueSize_cons, queueSize_append, totalSize_eq n]
  omega

theorem bfsCollect_nil (limit : Nat) (acc : List Str) :
    bfsCollect limit [] acc = acc := rfl

theorem bfsCollect_cons (limit : Nat) (n : TrieNode) (q : List TrieNode)
    (acc : List Str) :
    bfsCollect limit (n :: q) acc
      = if acc.length < limit then
          bfsCollect limit (q ++ childNodes n) (acc ++ n.ends)
        else acc := by
  rw [bfsCollect, bfsCollect, queueSize_pop]
  rfl

theorem bfsOrder_nil : bfsOrder [] = [] := rfl

theorem bfsOrder_cons (n : TrieNode) (q : List TrieNode) :
    bfsOrder (n :: q) = n :: bfsOrder (q ++ childNodes n) := by
  rw [bfsOrder, bfsOrder, queueSize_pop]
  rfl

theorem countOf_nil (t : Str) : countOf [] t = 0 := rfl

theorem countOf_cons (p : Str × Nat) (m : List (Str × Nat)) (t : Str) :
    countOf (p :: m) t = if p.1 = t then p.2 else countOf m t := by
  by_cases h : p.1 = t <;> simp [countOf, List.find?_cons, h]

theorem bump_cons_other (p : Str × Nat) (m : List (Str × Nat)) (t : Str)
    (h : p.1 ≠ t) : bump (p :: m) t = p :: bump m t := by
  by_cases hm : m.any (fun q => decide (q.1 = t)) <;>
    simp [bump, h, hm, List.any_cons]

theorem countOf_bump_self (m : List (Str × Nat)) (t : Str) :
    countOf (bump m t) t = countOf m t + 1 := by
  induction m with
  | nil => simp [bump, countOf_nil, countOf_cons]
  | cons p rest ih =>
    by_cases h : p.1 = t
    · simp [bump, List.any_cons, h, countOf_cons]
    · rw [bump_cons_other p rest t h, countOf_cons, countOf_cons, if_neg h,
        if_neg h, ih]

theorem countOf_map_update (m : List (Str × Nat)) (t s : Str) (hs : s ≠ t) :
    countOf (m.map (fun q => if q.1 = t then (q.1, q.2 + 1) else q)) s
      = countOf m s := by
  induction m with
  | nil => rfl
  | cons p rest ih =>
    rw [List.map_cons, countOf_cons, countOf_cons]
    have hfst : (if p.1 = t then (p.1, p.2 + 1) else p).1 = p.1 := by
      by_cases h : p.1 = t <;> simp [h]
    rw [hfst]
    by_cases hp : p.1 = s
    · have hpt : p.1 ≠ t := by rw [hp]; exact hs
      simp [hp, hpt, hs]
    · simp [hp, ih]

theorem countOf_append_new (m : List (Str × Nat)) (t s : Str) (v : Nat)
    (hs : s ≠ t) : countOf (m ++ [(t, v)]) s = countOf m s := by
  induction m with
  | nil => simp [countOf_nil, countOf_cons, Ne.symm hs]
  | cons p rest ih => rw [List.cons_append, countOf_cons, countOf_cons, ih]

theorem countOf_bump_other (m : List (Str × Nat)) (t s : Str) (hs : s ≠ t) :
    countOf (bump m t) s = countOf m s := by
  by_cases hm : m.any (fun q => decide (q.1 = t))
  · rw [show bump m t = m.map (fun q => if q.1 = t then (q.1, q.2 + 1) else q) by
      simp [bump, hm]]
    exact countOf_map_update m t s hs
  · rw [show bump m t = m ++ [(t, 1)] by simp [bump, hm]]
    exact countOf_append_new m t s 1 hs

/-- C3: for every node, if the engine's load-and-play raises, `play_node`
reports the error (error box shown) and leaves the whole state — in
particular the current-track pointer and the play-count ledger — unchanged;
if it succeeds, `play_node` increments that title's play count by exactly
one (creating the entry at 1 if absent), leaves every other count unchanged,
and sets the current-track pointer to that node. -/
theorem C3_play_node (ok : Str → Bool) (st : AppState) (i : Nat) (tr : Track)
    (hi : st.tracks[i]? = some tr) :
    (ok tr.path = false → play_node ok st (some i) = (st, true)) ∧
    (ok tr.path = true →
      (play_node ok st (some i)).2 = false ∧
      (play_node ok st (some i)).1.current = some i ∧
      countOf (play_node ok st (some i)).1.play_counts tr.title
        = countOf st.play_counts tr.title + 1 ∧
      (∀ s : Str, s ≠ tr.title →
        countOf (play_node ok st (some i)).1.play_counts s
          = countOf st.play_counts s)) := by
  constructor
  · intro hfail
    simp [play_node, hi, hfail]
  · intro hok
    have hpn : play_node ok st (some i)
        = ({ st with
              engine := engineLoadPlay st.engine,
              play_counts := bump st.play_counts tr.title,
              current := some i,
              status := str "Playing: " ++ tr.title }, false) := by
      simp [play_node, hi, hok]
    rw [hpn]
    exact ⟨rfl, rfl, countOf_bump_self _ _, fun s hs => countOf_bump_other _ _ _ hs⟩

/-- Witness for C3 at a concrete state: playing track 0 of the loaded
two-track folder succeeds and bumps the count of "a" from 0 to 1; with a
failing engine the state is returned untouched with the error flag. -/
theorem C3_play_node_witness :
    (play_node okNone stLoaded (some 0) = (stLoaded, true)) ∧
    ((play_node okAll stLoaded (some 0)).1.current = some 0) ∧
    countOf (play_node okAll stLoaded (some 0)).1.play_counts (str "a")
      = countOf stLoaded.play_counts (str "a") + 1 := by
  refine ⟨(C3_play_node okNone stLoaded 0 ⟨str "a", str "/m/a.mp3"⟩ (by decide)).1 rfl,
    ?_, ?_⟩
  · exact ((C3_play_node okAll stLoaded 0 ⟨str "a", str "/m/a.mp3"⟩ (by decide)).2 rfl).2.1
  · exact ((C3_play_node okAll stLoaded 0 ⟨str "a", str "/m/a.mp3"⟩ (by decide)).2 rfl).2.2.1

/-- C5 counterexample: in the initial state no track is current, yet
`_toggle_pause` is not a no-op — it issues a resume command and rewrites
the status bar to "Resumed". -/
theorem C5_toggle_pause_counterexample :
    init.current = none ∧
    (toggle_pause init).2 = EngCmd.resume ∧
    (toggle_pause init).1.status = str "Resumed" ∧
    (toggle_pause init).1.status ≠ init.status := by
  refine ⟨rfl, rfl, rfl, ?_⟩
  decide

/-- C5 (amended): `_toggle_pause` never inspects whether a track is
current.  It issues pause exactly when the engine is busy and not paused —
in particular when the current track is playing — and otherwise issues
resume — in particular when the current track is paused or stopped, but
also when no track is current at all (so the call is not a no-op then). -/
theorem C5_toggle_pause (st : AppState) :
    (st.engine.busy = true → st.engine.paused = false →
      toggle_pause st
        = ({ st with engine := enginePause st.engine, status := str "Paused" },
           EngCmd.pause)) ∧
    (st.engine.busy = false ∨ st.engine.paused = true →
      toggle_pause st
        = ({ st with engine := engineResume st.engine, status := str "Resumed" },
           EngCmd.resume)) := by
  constructor
  · intro hb hp
    simp [toggle_pause, hb, hp]
  · intro h
    rcases h with h | h <;> simp [toggle_pause, h]

/-- Witness for C5 at concrete states: with a busy, unpaused engine the
toggle pauses; in the stopped state it resumes. -/
theorem C5_toggle_pause_witness :
    toggle_pause stPlaying
      = ({ stPlaying with
            engine := enginePause stPlaying.engine,
            status := str "Paused" },
         EngCmd.pause) ∧
    toggle_pause stStopped
      = ({ stStopped with
            engine := engineResume stStopped.engine,
            status := str "Resumed" },
         EngCmd.resume) :=
  ⟨(C5_toggle_pause stPlaying).1 (by decide) (by decide),
   (C5_toggle_pause stStopped).2 (Or.inl (by decide))⟩

/-- C1 (code bug): the poll's guard only checks `paused` and `current`.
After a deliberate stop the engine is not paused, not busy, and the current
track is retained, so the very next poll tick invokes `next_song` and the
player advances to track "b" — the spec requires the poll not to fire after
a deliberate stop.  (The paused half of the guard does hold: `stop` is the
problem, because it clears `paused` and `busy` without clearing
`current`.) -/
theorem C1_poll_advances_after_stop :
    stStopped.status = str "Stopped" ∧
    stStopped.current = some 0 ∧
    stStopped.engine.paused = false ∧
    stStopped.engine.busy = false ∧
    poll_fires stStopped = true ∧
    (poll_tick 0 okAll stStopped).1.current = some 1 ∧
    (poll_tick 0 okAll stStopped).1.status = str "Playing: b" := by
  refine ⟨by decide, by decide, by decide, by decide, by decide, by decide, by decide⟩

theorem load_foldl_eq (l : List Track) (s0 : AppState) :
    l.foldl loadStep s0
      = { s0 with
          tracks := s0.tracks ++ l,
          trie := l.foldl (fun t tr => t.insert tr.title) s0.trie,
          node_by_title := regFrom s0.node_by_title s0.tracks.length l } := by
  induction l generalizing s0 with
  | nil => simp [regFrom]
  | cons tr rest ih =>
    rw [List.foldl_cons, ih (loadStep s0 tr), List.foldl_cons]
    simp [loadStep, regFrom]

/-- C2 counterexample: reload after a play leaves the Play-Count Ledger
non-empty — the reset block of `load_folder` clears every structure except
`play_counts`.  The state is reachable: fresh app, load two songs, play the
head track, reload with a one-song folder; the load succeeds (no info box)
yet the ledger still holds the old count for "a". -/
theorem C2_load_folder_counterexample :
    songsOne ≠ [] ∧
    (load_folder stPlaying songsOne).2 = false ∧
    (load_folder stPlaying songsOne).1.play_counts = [(str "a", 1)] := by
  refine ⟨by decide, by decide, by decide⟩

/-- C2 (amended): a successful folder load synchronously clears the
Navigation History and the current-track pointer and rebuilds the Playlist
Sequence, the Title Index and the title-to-node registry from the new
folder's files alone (the whole reload is one atomic operation in the
single-threaded model) — but the Play-Count Ledger is NOT cleared: it
persists unchanged across reloads. -/
theorem C2_load_folder (st : AppState) (songs : List Track)
    (h : songs ≠ []) :
    (load_folder st songs).2 = false ∧
    (load_folder st songs).1.history_stack = [] ∧
    (load_folder st songs).1.current = none ∧
    (load_folder st songs).1.tracks = sortTracks songs ∧
    (load_folder st songs).1.trie
      = buildTrie ((sortTracks songs).map Track.title) ∧
    (load_folder st songs).1.node_by_title = regFrom [] 0 (sortTracks songs) ∧
    (load_folder st songs).1.play_counts = st.play_counts := by
  have hne : songs.isEmpty = false := by
    cases songs with
    | nil => exact absurd rfl h
    | cons a l => rfl
  have htrie : ∀ (l : List Track) (t0 : Trie),
      l.foldl (fun t tr => t.insert tr.title) t0 = (l.map Track.title).foldl Trie.insert t0 := by
    intro l
    induction l with
    | nil => intro t0; rfl
    | cons tr rest ih => intro t0; rw [List.foldl_cons, List.map_cons, List.foldl_cons, ih]
  simp only [load_folder, hne, Bool.false_eq_true, if_false, load_foldl_eq]
  simp [htrie, buildTrie]

/-- Witness for C2: loading the two-song folder into the fresh app. -/
theorem C2_load_folder_witness :
    (load_folder init songsAB).2 = false ∧
    (load_folder init songsAB).1.history_stack = [] ∧
    (load_folder init songsAB).1.current = none ∧
    (load_folder init songsAB).1.tracks = sortTracks songsAB ∧
    (load_folder init songsAB).1.trie
      = buildTrie ((sortTracks songsAB).map Track.title) ∧
    (load_folder init songsAB).1.node_by_title = regFrom [] 0 (sortTracks songsAB) ∧
    (load_folder init songsAB).1.play_counts = init.play_counts :=
  C2_load_folder init songsAB (by decide)

/-- C10: when `next_song` finds a target but the engine fails to load it,
the prior current track has already been appended to the Navigation History
and is not removed: the resulting state is exactly the old one with the old
current track appended to the history (so the current track and the ledger
are unchanged) and the error box shown. -/
theorem C10_failed_advance_grows_history (rnd : Nat) (ok : Str → Bool)
    (st : AppState) (c j : Nat) (tr : Track)
    (hc : st.current = some c)
    (ht : advance_target rnd st = some j)
    (hj : st.tracks[j]? = some tr)
    (hfail : ok tr.path = false) :
    next_song rnd ok st
      = ({ st with history_stack := st.history_stack ++ [c] }, true) := by
  simp [next_song, ht, hc, play_node, hj, hfail]

/-- Witness for C10: at the playing state with a failing engine, advancing
to track 1 pushes track 0 to the history and changes nothing else. -/
theorem C10_failed_advance_grows_history_witness :
    next_song 0 okNone stPlaying
      = ({ stPlaying with history_stack := stPlaying.history_stack ++ [0] },
         true) :=
  C10_failed_advance_grows_history 0 okNone stPlaying 0 1
    ⟨str "b", str "/m/b.mp3"⟩ (by decide) (by decide) (by decide) rfl

/-- C9: with shuffle off and current track `c` having a successor, a
successful advance moves to the immediate successor `c+1` and pushes `c`
onto the History; a subsequent `prev_song` pops it and returns to `c`
without pushing anything (the History is back to what it was); and
`prev_song` with an empty History reports "No previous song" and changes
nothing else. -/
theorem C9_advance_then_back (rnd : Nat) (ok : Str → Bool) (st : AppState)
    (c : Nat) (tr0 tr1 : Track)
    (hsh : st.shuffle_on = false) (hc : st.current = some c)
    (h1 : st.tracks[c + 1]? = some tr1) (h0 : st.tracks[c]? = some tr0)
    (hok1 : ok tr1.path = true) (hok0 : ok tr0.path = true) :
    ((next_song rnd ok st).1.current = some (c + 1)) ∧
    ((next_song rnd ok st).1.history_stack = st.history_stack ++ [c]) ∧
    ((prev_song ok (next_song rnd ok st).1).1.current = some c) ∧
    ((prev_song ok (next_song rnd ok st).1).1.history_stack
       = st.history_stack) ∧
    (∀ st2 : AppState, st2.history_stack = [] →
      prev_song ok st2 = ({ st2 with status := str "No previous song" },
        false)) := by
  have hlt : c + 1 < st.tracks.length := by
    rcases List.getElem?_eq_some.mp h1 with ⟨hh, _⟩
    exact hh
  have hadv : advance_target rnd st = some (c + 1) := by
    simp [advance_target, hsh, hc, hlt]
  have hnext : next_song rnd ok st
      = ({ st with
            history_stack := st.history_stack ++ [c],
            engine := engineLoadPlay st.engine,
            play_counts := bump st.play_counts tr1.title,
            current := some (c + 1),
            status := str "Playing: " ++ tr1.title }, false) := by
    simp [next_song, hadv, hc, play_node, h1, hok1]
  have hback : prev_song ok (next_song rnd ok st).1
      = ({ st with
            history_stack := st.history_stack,
            engine := engineLoadPlay st.engine,
            play_counts := bump (bump st.play_counts tr1.title) tr0.title,
            current := some c,
            status := str "Playing: " ++ tr0.title }, false) := by
    rw [hnext]
    simp [prev_song, play_node, h0, hok0, engineLoadPlay]
  refine ⟨by rw [hnext], by rw [hnext], by rw [hback], by rw [hback], ?_⟩
  intro st2 h2
  simp [prev_song, h2]

/-- Witness for C9 at the concrete two-track playing state: advance to
track 1 ("b"), go back to track 0 ("a"), and back again on the now-empty
history reports "No previous song". -/
theorem C9_advance_then_back_witness :
    ((next_song 0 okAll stPlaying).1.current = some 1) ∧
    ((next_song 0 okAll stPlaying).1.history_stack
       = stPlaying.history_stack ++ [0]) ∧
    ((prev_song okAll (next_song 0 okAll stPlaying).1).1.current = some 0) ∧
    ((prev_song okAll (next_song 0 okAll stPlaying).1).1.history_stack
       = stPlaying.history_stack) ∧
    (∀ st2 : AppState, st2.history_stack = [] →
      prev_song okAll st2 = ({ st2 with status := str "No previous song" },
        false)) :=
  C9_advance_then_back 0 okAll stPlaying 0 ⟨str "a", str "/m/a.mp3"⟩
    ⟨str "b", str "/m/b.mp3"⟩ (by decide) (by decide) (by decide) (by decide)
    rfl rfl

/-- C4 counterexample: a reachable state whose sequence has exactly one
track, shuffle on and no current track.  Advancing does NOT report end of
playlist: `_random_next` checks `current is None` before the
single-track check and picks the lone track, which is then played. -/
theorem C4_counterexample :
    stOneShuffle.tracks.length = 1 ∧
    stOneShuffle.shuffle_on = true ∧
    stOneShuffle.current = none ∧
    (next_song 0 okAll stOneShuffle).1.current = some 0 ∧
    (next_song 0 okAll stOneShuffle).1.status = str "Playing: solo" ∧
    (next_song 0 okAll stOneShuffle).1.status ≠ str "End of playlist" := by
  refine ⟨by decide, by decide, by decide, by decide, by decide, by decide⟩

/-- C4 (amended): when shuffle is on and a track is current, advance
samples `random.choice` on exactly the sequence nodes other than the
current one whenever more than one track exists (each such node is a
possible outcome of the uniform pick); with exactly one track and a current
track, advance reports end of playlist and changes nothing else.  But when
no track is current, `_random_next` instead picks among ALL nodes — in
particular with exactly one track it plays that track rather than
reporting end of playlist. -/
theorem C4_shuffle_advance (st : AppState) :
    (∀ c rnd, st.current = some c → 1 < st.tracks.length →
      random_next rnd st
        = some (choiceModel rnd
            ((List.range st.tracks.length).filter (fun n => decide (n ≠ c))))) ∧
    (∀ c j, st.current = some c → 1 < st.tracks.length →
      j ∈ (List.range st.tracks.length).filter (fun n => decide (n ≠ c)) →
      ∃ rnd, random_next rnd st = some j) ∧
    (∀ c rnd ok, st.tracks.length = 1 → st.current = some c →
      st.shuffle_on = true →
      next_song rnd ok st
        = ({ st with status := str "End of playlist" }, false)) ∧
    (∀ rnd, st.current = none → 0 < st.tracks.length →
      random_next rnd st
        = some (choiceModel rnd (List.range st.tracks.length))) := by
  have hnonempty : 0 < st.tracks.length →
      (List.range st.tracks.length).isEmpty = false := by
    intro hpos
    cases hv : (List.range st.tracks.length).isEmpty
    · rfl
    · rw [List.isEmpty_iff] at hv
      have := congrArg List.length hv
      rw [List.length_range, List.length_nil] at this
      omega
  have hA : ∀ c rnd, st.current = some c → 1 < st.tracks.length →
      random_next rnd st
        = some (choiceModel rnd
            ((List.range st.tracks.length).filter (fun n => decide (n ≠ c)))) := by
    intro c rnd hc hlen
    simp only [random_next, hnonempty (Nat.lt_of_lt_of_le Nat.zero_lt_one
      (Nat.le_of_lt hlen)), Bool.false_eq_true, if_false, hc,
      List.length_range, Nat.ne_of_gt hlen, ite_false]
    split
    · rename_i hv
      have hmem : (if c = 0 then 1 else 0)
          ∈ (List.range st.tracks.length).filter (fun n => decide (n ≠ c)) := by
        by_cases hc0 : c = 0
        · simp only [hc0, if_true]
          exact List.mem_filter.mpr ⟨List.mem_range.mpr hlen, by simp [hc0]⟩
        · simp only [hc0, if_false]
          exact List.mem_filter.mpr
            ⟨List.mem_range.mpr (Nat.lt_of_lt_of_le Nat.zero_lt_one
              (Nat.le_of_lt hlen)), by simp [Ne.symm hc0]⟩
      rw [List.isEmpty_iff] at hv
      rw [hv] at hmem
      exact absurd hmem (List.not_mem_nil _)
    · rfl
  refine ⟨hA, ?_, ?_, ?_⟩
  · intro c j hc hlen hj
    refine ⟨List.indexOf j ((List.range st.tracks.length).filter
      (fun n => decide (n ≠ c))), ?_⟩
    rw [hA c _ hc hlen]
    congr 1
    have hidx : List.indexOf j ((List.range st.tracks.length).filter
        (fun n => decide (n ≠ c)))
        < ((List.range st.tracks.length).filter (fun n => decide (n ≠ c))).length :=
      List.indexOf_lt_length.mpr hj
    rw [choiceModel, Nat.mod_eq_of_lt hidx, List.getD_eq_getElem _ _ hidx,
      List.getElem_indexOf]
  · intro c rnd ok hlen hc hsh
    have hr : List.range st.tracks.length = [0] := by rw [hlen]; rfl
    have hrn : random_next rnd st = none := by
      simp [random_next, hr, hc]
    have hadv : advance_target rnd st = none := by
      simp [advance_target, hsh, hrn]
    simp [next_song, hadv]
  · intro rnd hc hpos
    simp [random_next, hnonempty hpos, hc]

/-- Witness for C4: at the two-track playing state the sample list is the
exclusion list and node 1 is an attainable outcome; at the one-track
playing state with shuffle on, advance reports end of playlist. -/
theorem C4_shuffle_advance_witness :
    random_next 3 stPlaying
      = some (choiceModel 3
          ((List.range stPlaying.tracks.length).filter (fun n => decide (n ≠ 0)))) ∧
    (∃ rnd, random_next rnd stPlaying = some 1) ∧
    next_song 7 okAll stOnePlaying
      = ({ stOnePlaying with status := str "End of playlist" }, false) :=
  ⟨(C4_shuffle_advance stPlaying).1 0 3 (by decide) (by decide),
   (C4_shuffle_advance stPlaying).2.1 0 1 (by decide) (by decide) (by decide),
   (C4_shuffle_advance stOnePlaying).2.2.1 0 7 okAll (by decide) (by decide)
     (by decide)⟩

theorem bestOf_cons_none (p : Str × Nat) (rest : List (Str × Nat))
    (h : bestOf rest = none) : bestOf (p :: rest) = some p := by
  rw [bestOf, h]

theorem bestOf_cons_some (p q : Str × Nat) (rest : List (Str × Nat))
    (h : bestOf rest = some q) :
    bestOf (p :: rest) = some (if beats q p then q else p) := by
  rw [bestOf, h]

theorem bestOf_nil_iff (l : List (Str × Nat)) : bestOf l = none ↔ l = [] := by
  cases l with
  | nil => simp [bestOf]
  | cons p rest =>
    simp only [List.cons_ne_nil, iff_false]
    cases hr : bestOf rest with
    | none => rw [bestOf_cons_none p rest hr]; exact fun h => by cases h
    | some q => rw [bestOf_cons_some p q rest hr]; exact fun h => by cases h

theorem beats_le {p q : Str × Nat} (h : beats q p = true) : p.2 ≤ q.2 := by
  rw [beats, Bool.or_eq_true, Bool.and_eq_true] at h
  rcases h with h | ⟨h, _⟩
  · exact Nat.le_of_lt (of_decide_eq_true h)
  · exact Nat.le_of_eq (of_decide_eq_true h).symm

theorem not_beats_le {p q : Str × Nat} (h : ¬ beats q p = true) : q.2 ≤ p.2 := by
  by_contra hlt
  exact h (by simp [beats, Nat.lt_of_not_le hlt])

theorem bestOf_mem : ∀ {l : List (Str × Nat)} {b : Str × Nat},
    bestOf l = some b → b ∈ l := by
  intro l
  induction l with
  | nil => intro b h; cases h
  | cons p rest ih =>
    intro b h
    cases hr : bestOf rest with
    | none =>
      rw [bestOf_cons_none p rest hr] at h
      cases h
      exact List.mem_cons_self _ _
    | some q =>
      rw [bestOf_cons_some p q rest hr] at h
      by_cases hb : beats q p
      · rw [if_pos hb] at h
        cases h
        exact List.mem_cons_of_mem _ (ih hr)
      · rw [if_neg hb] at h
        cases h
        exact List.mem_cons_self _ _

theorem bestOf_count_ge : ∀ {l : List (Str × Nat)} {b : Str × Nat},
    bestOf l = some b → ∀ x ∈ l, x.2 ≤ b.2 := by
  intro l
  induction l with
  | nil => intro b _ x hx; cases hx
  | cons p rest ih =>
    intro b h x hx
    cases hr : bestOf rest with
    | none =>
      have hrest : rest = [] := (bestOf_nil_iff rest).mp hr
      rw [bestOf_cons_none p rest hr] at h
      cases h
      subst hrest
      rw [List.mem_singleton.mp hx]
    | some q =>
      rw [bestOf_cons_some p q rest hr] at h
      rcases List.mem_cons.mp hx with hxp | hxr
      · by_cases hb : beats q p
        · rw [if_pos hb] at h
          cases h
          rw [hxp]
          exact beats_le hb
        · rw [if_neg hb] at h
          cases h
          rw [hxp]
      · by_cases hb : beats q p
        · rw [if_pos hb] at h
          cases h
          exact ih hr x hxr
        · rw [if_neg hb] at h
          cases h
          exact Nat.le_trans (ih hr x hxr) (not_beats_le hb)

theorem eraseEntry_subset (l : List (Str × Nat)) (b : Str × Nat) :
    eraseEntry l b ⊆ l := by
  induction l with
  | nil => exact fun x hx => hx
  | cons x xs ih =>
    intro y hy
    rw [eraseEntry] at hy
    by_cases hx : x = b
    · rw [if_pos hx] at hy
      exact List.mem_cons_of_mem _ hy
    · rw [if_neg hx] at hy
      rcases List.mem_cons.mp hy with hyx | hyr
      · rw [hyx]; exact List.mem_cons_self _ _
      · exact List.mem_cons_of_mem _ (ih hyr)

theorem length_eraseEntry_of_mem : ∀ {l : List (Str × Nat)} {b : Str × Nat},
    b ∈ l → (eraseEntry l b).length = l.length - 1 := by
  intro l
  induction l with
  | nil => intro b h; cases h
  | cons x xs ih =>
    intro b h
    rw [eraseEntry]
    by_cases hx : x = b
    · rw [if_pos hx, List.length_cons]
      omega
    · rw [if_neg hx, List.length_cons, List.length_cons]
      have hbx : b ∈ xs := by
        rcases List.mem_cons.mp h with hxx | hxs
        · exact absurd hxx.symm hx
        · exact hxs
      rw [ih hbx]
      have : 1 ≤ xs.length := List.length_pos.mpr (List.ne_nil_of_mem hbx)
      omega

theorem perm_cons_eraseEntry : ∀ {l : List (Str × Nat)} {b : Str × Nat},
    b ∈ l → l.Perm (b :: eraseEntry l b) := by
  intro l
  induction l with
  | nil => intro b h; cases h
  | cons x xs ih =>
    intro b h
    rw [eraseEntry]
    by_cases hx : x = b
    · rw [if_pos hx, hx]
    · rw [if_neg hx]
      have hbx : b ∈ xs := by
        rcases List.mem_cons.mp h with hxx | hxs
        · exact absurd hxx.symm hx
        · exact hxs
      exact ((ih hbx).cons x).trans (List.Perm.swap b x _)

theorem popK_subset : ∀ (k : Nat) (l : List (Str × Nat)) (x : Str × Nat),
    x ∈ popK k l → x ∈ l := by
  intro k
  induction k with
  | zero => intro l x h; cases h
  | succ k ih =>
    intro l x h
    cases hb : bestOf l with
    | none => rw [popK, hb] at h; cases h
    | some b =>
      rw [popK, hb] at h
      rcases List.mem_cons.mp h with hxb | hxr
      · rw [hxb]; exact bestOf_mem hb
      · exact eraseEntry_subset _ _ (ih _ _ hxr)

theorem popK_sorted (k : Nat) (l : List (Str × Nat)) :
    (popK k l).Pairwise (fun a b => b.2 ≤ a.2) := by
  induction k generalizing l with
  | zero => exact List.Pairwise.nil
  | succ k ih =>
    cases hb : bestOf l with
    | none => rw [popK, hb]; exact List.Pairwise.nil
    | some b =>
      rw [popK, hb]
      refine List.pairwise_cons.mpr ⟨?_, ih _⟩
      intro x hx
      exact bestOf_count_ge hb x (eraseEntry_subset _ _ (popK_subset _ _ _ hx))

theorem popK_perm_aux : ∀ (n : Nat) (l : List (Str × Nat)),
    l.length = n → (popK n l).Perm l := by
  intro n
  induction n with
  | zero =>
    intro l h
    rw [List.length_eq_zero] at h
    subst h
    exact List.Perm.refl _
  | succ n ih =>
    intro l h
    cases l with
    | nil => cases h
    | cons p rest =>
      rcases hbe : bestOf (p :: rest) with _ | b
      · rw [(bestOf_nil_iff _).mp hbe] at h; cases h
      · rw [popK, hbe]
        have hbm : b ∈ p :: rest := bestOf_mem hbe
        have hlen : (eraseEntry (p :: rest) b).length = n := by
          rw [length_eraseEntry_of_mem hbm, List.length_cons]
          rw [List.length_cons] at h
          omega
        exact ((ih _ hlen).cons b).trans (perm_cons_eraseEntry hbm).symm

theorem popK_perm (l : List (Str × Nat)) : (popK l.length l).Perm l :=
  popK_perm_aux l.length l rfl

theorem map_update_skip (m : List (Str × Nat)) (t : Str)
    (h : ∀ p ∈ m, p.1 ≠ t) :
    m.map (fun p => if p.1 = t then (p.1, p.2 + 1) else p) = m := by
  induction m with
  | nil => rfl
  | cons p rest ih =>
    rw [List.map_cons, if_neg (h p (List.mem_cons_self _ _)),
      ih (fun q hq => h q (List.mem_cons_of_mem _ hq))]

theorem bump_of_not_mem (m : List (Str × Nat)) (t : Str)
    (h : ∀ p ∈ m, p.1 ≠ t) : bump m t = m ++ [(t, 1)] := by
  rw [bump, if_neg]
  rw [List.any_eq_true]
  rintro ⟨p, hp, hpt⟩
  exact h p hp (by simpa using hpt)

theorem bump_append_entry (m : List (Str × Nat)) (t : Str) (n : Nat)
    (h : ∀ p ∈ m, p.1 ≠ t) :
    bump (m ++ [(t, n)]) t = m ++ [(t, n + 1)] := by
  rw [bump, if_pos, List.map_append, map_update_skip m t h]
  · simp
  · rw [List.any_eq_true]
    exact ⟨(t, n), by simp⟩

theorem bumpN_not_mem (m : List (Str × Nat)) (t : Str)
    (h : ∀ p ∈ m, p.1 ≠ t) :
    ∀ n, 1 ≤ n → bumpN m t n = m ++ [(t, n)] := by
  intro n
  induction n with
  | zero => intro h1; cases h1
  | succ n ih =>
    intro _
    cases n with
    | zero => exact bump_of_not_mem m t h
    | succ n2 =>
      rw [bumpN, ih (Nat.succ_le_succ (Nat.zero_le _)),
        bump_append_entry m t _ h]

theorem bestOf_append_max (m : List (Str × Nat)) (t : Str) (n : Nat)
    (h : ∀ p ∈ m, p.2 < n) :
    bestOf (m ++ [(t, n)]) = some (t, n) := by
  induction m with
  | nil => rfl
  | cons p rest ih =>
    rw [List.cons_append,
      bestOf_cons_some p (t, n) _ (ih (fun q hq => h q (List.mem_cons_of_mem _ hq)))]
    have hp : p.2 < n := h p (List.mem_cons_self _ _)
    rw [if_pos (by simp [beats, hp])]

/-- C8: `show_top_played` does not mutate the app state (in particular the
ledger); its rows are in descending play-count order; with `k` at least the
entry count it returns all entries (a permutation of the ledger); and after
`recordPlay(t)` n ≥ 1 times on a ledger with no `t` entry, if `t` is the
unique maximum then the top-1 query returns exactly `(t, n)`. -/
theorem C8_show_top_played (st : AppState) (k : Nat) :
    ((show_top_played st k).1 = st) ∧
    ((show_top_played st k).2.getD []).Pairwise (fun a b => b.2 ≤ a.2) ∧
    (st.play_counts ≠ [] → st.play_counts.length ≤ k →
      ((show_top_played st k).2.getD []).Perm st.play_counts) ∧
    (∀ (m : List (Str × Nat)) (t : Str) (n : Nat),
      (∀ p ∈ m, p.1 ≠ t) → 1 ≤ n → (∀ p ∈ m, p.2 < n) →
      (show_top_played { st with play_counts := bumpN m t n } 1).2
        = some [(t, n)]) := by
  refine ⟨?_, ?_, ?_, ?_⟩
  · by_cases h : st.play_counts.isEmpty <;> simp [show_top_played, h]
  · by_cases h : st.play_counts.isEmpty
    · simp [show_top_played, h]
    · simp only [show_top_played, h, Bool.false_eq_true, if_false,
        Option.getD_some]
      exact popK_sorted _ _
  · intro hne hk
    have h : st.play_counts.isEmpty = false := by
      cases hv : st.play_counts.isEmpty
      · rfl
      · exact absurd (List.isEmpty_iff.mp hv) hne
    simp only [show_top_played, h, Bool.false_eq_true, if_false,
      Option.getD_some]
    rw [Nat.min_eq_right hk]
    exact popK_perm _
  · intro m t n hm h1 hmax
    have hb : bumpN m t n = m ++ [(t, n)] := bumpN_not_mem m t hm n h1
    have hlen : (bumpN m t n).length = m.length + 1 := by
      rw [hb, List.length_append, List.length_cons, List.length_nil]
    have hne : (bumpN m t n).isEmpty = false := by
      cases hv : (bumpN m t n).isEmpty
      · rfl
      · have := congrArg List.length (List.isEmpty_iff.mp hv)
        rw [hlen, List.length_nil] at this
        cases this
    have hmin : min 1 (bumpN m t n).length = 1 := by
      rw [Nat.min_eq_left (by omega)]
    simp only [show_top_played, hne, Bool.false_eq_true, if_false, hmin]
    rw [hb]
    simp only [popK, bestOf_append_max m t n hmax]

/-- Witness for C8 at a concrete ledger: the top-k rows permute the whole
ledger when `k` exceeds its size, and three plays of "y" over one play of
"x" make `topK(1)` return `("y", 3)`. -/
theorem C8_show_top_played_witness :
    ((show_top_played { init with play_counts := [(str "x", 2), (str "y", 5)] }
        9).2.getD []).Perm [(str "x", 2), (str "y", 5)] ∧
    (show_top_played
        { init with
            play_counts := bumpN [(str "x", 2)] (str "y") 3 } 1).2
      = some [(str "y", 3)] :=
  ⟨(C8_show_top_played { init with play_counts := [(str "x", 2), (str "y", 5)] }
      9).2.2.1 (by decide) (by decide),
   (C8_show_top_played { init with play_counts := [] } 1).2.2.2
      [(str "x", 2)] (str "y") 3 (by decide) (by decide) (by decide)⟩

theorem totalSize_pos (n : TrieNode) : 1 ≤ n.totalSize := by
  rw [totalSize_eq]
  omega

theorem queueSize_cons_pos (n : TrieNode) (q : List TrieNode) :
    1 ≤ queueSize (n :: q) := by
  rw [queueSize_cons]
  have := totalSize_pos n
  omega

theorem collectWhile_nil (limit : Nat) (acc : List Str) :
    collectWhile limit [] acc = acc := rfl

theorem bfsCollect_eq_collectWhile_aux (limit : Nat) :
    ∀ (N : Nat) (q : List TrieNode) (acc : List Str), queueSize q ≤ N →
      bfsCollect limit q acc = collectWhile limit (bfsOrder q) acc := by
  intro N
  induction N with
  | zero =>
    intro q acc h
    cases q with
    | nil => rw [bfsCollect_nil, bfsOrder_nil, collectWhile_nil]
    | cons n qs =>
      have := queueSize_cons_pos n qs
      omega
  | succ N ih =>
    intro q acc h
    cases q with
    | nil => rw [bfsCollect_nil, bfsOrder_nil, collectWhile_nil]
    | cons n qs =>
      rw [bfsCollect_cons, bfsOrder_cons, collectWhile]
      have hsz : queueSize (qs ++ childNodes n) ≤ N := by
        have := queueSize_pop n qs
        omega
      by_cases hlt : acc.length < limit
      · rw [if_pos hlt, if_pos hlt, ih _ _ hsz]
      · rw [if_neg hlt, if_neg hlt]

theorem bfsCollect_eq_collectWhile (limit : Nat) (q : List TrieNode)
    (acc : List Str) :
    bfsCollect limit q acc = collectWhile limit (bfsOrder q) acc :=
  bfsCollect_eq_collectWhile_aux limit (queueSize q) q acc (Nat.le_refl _)

theorem bfsOrder_append : ∀ (q r : List TrieNode),
    bfsOrder (q ++ r) = q ++ bfsOrder (r ++ q.flatMap childNodes) := by
  intro q
  induction q with
  | nil =>
    intro r
    simp
  | cons n qs ih =>
    intro r
    rw [List.cons_append, bfsOrder_cons, List.append_assoc,
      ih (r ++ childNodes n), List.flatMap_cons, List.append_assoc,
      List.cons_append]

theorem bfsOrder_flatMap (q : List TrieNode) :
    bfsOrder q = q ++ bfsOrder (q.flatMap childNodes) := by
  have h := bfsOrder_append q []
  rw [List.append_nil, List.nil_append] at h
  exact h

theorem queueSize_flatMap_lt (n : TrieNode) (qs : List TrieNode) :
    queueSize ((n :: qs).flatMap childNodes) < queueSize (n :: qs) := by
  rw [List.flatMap_cons, queueSize_append, queueSize_cons, totalSize_eq]
  have := queueSize_flatMap_le qs
  omega

theorem bfsOrder_eq_levels_aux :
    ∀ (N : Nat) (q : List TrieNode), queueSize q ≤ N →
      bfsOrder q = (levels q).flatten := by
  intro N
  induction N with
  | zero =>
    intro q h
    cases q with
    | nil => rw [bfsOrder_nil, levels]; rfl
    | cons n qs =>
      have := queueSize_cons_pos n qs
      omega
  | succ N ih =>
    intro q h
    cases q with
    | nil => rw [bfsOrder_nil, levels]; rfl
    | cons n qs =>
      rw [levels]
      simp only [List.isEmpty_cons, Bool.false_eq_true, if_false,
        List.flatten_cons]
      rw [← ih _ (by have := queueSize_flatMap_lt n qs; omega),
        ← bfsOrder_flatMap]

theorem bfsOrder_eq_levels (q : List TrieNode) :
    bfsOrder q = (levels q).flatten :=
  bfsOrder_eq_levels_aux (queueSize q) q (Nat.le_refl _)

theorem accDedup_isPrefix : ∀ (ws : List Str) (out : List Str),
    out <+: accDedup out ws := by
  intro ws
  induction ws with
  | nil => intro out; exact List.prefix_refl _
  | cons w ws ih =>
    intro out
    rw [accDedup]
    by_cases hw : w ∈ out
    · rw [if_pos hw]
      exact ih out
    · rw [if_neg hw]
      exact (List.prefix_append out [w]).trans (ih (out ++ [w]))

theorem accDedup_nodup : ∀ (ws : List Str) (out : List Str),
    out.Nodup → (accDedup out ws).Nodup := by
  intro ws
  induction ws with
  | nil => intro out h; exact h
  | cons w ws ih =>
    intro out h
    rw [accDedup]
    by_cases hw : w ∈ out
    · rw [if_pos hw]
      exact ih out h
    · rw [if_neg hw]
      refine ih (out ++ [w]) ?_
      simp [List.nodup_append, h, hw]

theorem accDedup_length_le : ∀ (ws : List Str) (out : List Str),
    (accDedup out ws).length ≤ out.length + ws.length := by
  intro ws
  induction ws with
  | nil => intro out; simp [accDedup]
  | cons w ws ih =>
    intro out
    rw [accDedup]
    by_cases hw : w ∈ out
    · rw [if_pos hw]
      have := ih out
      simp only [List.length_cons]
      omega
    · rw [if_neg hw]
      have := ih (out ++ [w])
      simp only [List.length_append, List.length_cons, List.length_nil] at this ⊢
      omega

theorem accDedup_mem : ∀ (ws : List Str) (out : List Str) (x : Str),
    x ∈ out ∨ x ∈ ws → x ∈ accDedup out ws := by
  intro ws
  induction ws with
  | nil =>
    intro out x h
    rcases h with h | h
    · exact h
    · cases h
  | cons w ws ih =>
    intro out x h
    rw [accDedup]
    by_cases hw : w ∈ out
    · rw [if_pos hw]
      refine ih out x ?_
      rcases h with h | h
      · exact Or.inl h
      · rcases List.mem_cons.mp h with hxw | hxs
        · exact Or.inl (hxw ▸ hw)
        · exact Or.inr hxs
    · rw [if_neg hw]
      refine ih (out ++ [w]) x ?_
      rcases h with h | h
      · exact Or.inl (List.mem_append_left _ h)
      · rcases List.mem_cons.mp h with hxw | hxs
        · exact Or.inl (List.mem_append_right _ (by simp [hxw]))
        · exact Or.inr hxs

theorem dedupe_cons_mem (limit : Nat) (w : Str) (ws out : List Str)
    (hw : w ∈ out) :
    dedupe limit (w :: ws) out
      = if limit ≤ out.length then out else dedupe limit ws out := by
  simp only [dedupe, if_pos hw]

theorem dedupe_cons_not_mem (limit : Nat) (w : Str) (ws out : List Str)
    (hw : w ∉ out) :
    dedupe limit (w :: ws) out
      = if limit ≤ (out ++ [w]).length then out ++ [w]
        else dedupe limit ws (out ++ [w]) := by
  simp only [dedupe, if_neg hw]

theorem dedupe_eq_accDedup_take (limit : Nat) :
    ∀ (ws : List Str) (out : List Str), out.length < limit →
      dedupe limit ws out = (accDedup out ws).take limit := by
  intro ws
  induction ws with
  | nil =>
    intro out h
    rw [dedupe, accDedup, List.take_of_length_le (Nat.le_of_lt h)]
  | cons w ws ih =>
    intro out h
    rw [accDedup]
    by_cases hw : w ∈ out
    · rw [dedupe_cons_mem limit w ws out hw, if_pos hw,
        if_neg (by omega), ih out h]
    · rw [dedupe_cons_not_mem limit w ws out hw, if_neg hw]
      by_cases hstop : limit ≤ (out ++ [w]).length
      · rw [if_pos hstop]
        have hlen : (out ++ [w]).length = limit := by
          simp only [List.length_append, List.length_cons, List.length_nil]
            at hstop ⊢
          omega
        rcases accDedup_isPrefix ws (out ++ [w]) with ⟨rest, hrest⟩
        rw [← hrest, ← hlen, List.take_left]
      · rw [if_neg hstop, ih (out ++ [w]) (by omega)]

theorem collectWhile_zero : ∀ (ns : List TrieNode), collectWhile 0 ns [] = [] := by
  intro ns
  cases ns with
  | nil => rfl
  | cons n rest =>
    rw [collectWhile]
    simp

/-- C7: `prefix_search` equals the spec's description — descend by
lowercased characters ([] on a missing child), collect titles level by
level (breadth-first) from the reached node until `limit` results are
collected or the subtree is exhausted, dedupe preserving first-seen order,
cap at `limit` — and its result is duplicate-free with at most `limit`
entries. -/
theorem C7_prefix_search_spec (t : Trie) (p : Str) (limit : Nat) :
    t.prefix_search p limit = specSearch t p limit ∧
    (findNode t.root (lowerStr p) = none → t.prefix_search p limit = []) ∧
    (t.prefix_search p limit).Nodup ∧
    (t.prefix_search p limit).length ≤ limit := by
  cases h : findNode t.root (lowerStr p) with
  | none =>
    have he : t.prefix_search p limit = [] := by
      simp only [Trie.prefix_search, h]
    refine ⟨?_, fun _ => he, ?_, ?_⟩
    · rw [he]
      simp only [specSearch, h]
    · rw [he]; exact List.Pairwise.nil
    · rw [he]; exact Nat.zero_le _
  | some n =>
    have heq : t.prefix_search p limit
        = (accDedup [] (collectWhile limit (levels [n]).flatten [])).take limit := by
      simp only [Trie.prefix_search, h]
      rw [bfsCollect_eq_collectWhile, bfsOrder_eq_levels]
      by_cases h0 : limit = 0
      · subst h0
        rw [collectWhile_zero, dedupe, accDedup, List.take_zero]
      · exact dedupe_eq_accDedup_take limit _ []
          (by simp only [List.length_nil]; omega)
    refine ⟨?_, ?_, ?_, ?_⟩
    · rw [heq]
      simp only [specSearch, h]
    · intro hcontra
      exact Option.noConfusion hcontra
    · rw [heq]
      exact (List.take_sublist _ _).nodup
        (accDedup_nodup _ [] List.nodup_nil)
    · rw [heq]
      exact List.length_take_le _ _

/-- Witness for C7: a concrete miss (prefix "z" has no child) returns the
empty list, and a concrete hit agrees with the spec-side description. -/
theorem C7_prefix_search_spec_witness :
    (buildTrie [str "Beta", str "alpha"]).prefix_search (str "z") 30 = [] ∧
    (buildTrie [str "Beta", str "alpha"]).prefix_search (str "be") 30
      = specSearch (buildTrie [str "Beta", str "alpha"]) (str "be") 30 :=
  ⟨(C7_prefix_search_spec (buildTrie [str "Beta", str "alpha"])
      (str "z") 30).2.1 (by rfl),
   (C7_prefix_search_spec (buildTrie [str "Beta", str "alpha"])
      (str "be") 30).1⟩

theorem endsAt_nil (n : TrieNode) : endsAt n [] = n.ends := rfl

theorem endsAt_cons (n : TrieNode) (d : Char) (ps : List Char) :
    endsAt n (d :: ps)
      = match lookupChild n.children d with
        | none => []
        | some t => endsAt t ps := by
  simp only [endsAt, findNode]
  cases lookupChild n.children d with
  | none => rfl
  | some t => rfl

theorem endsAt_empty_node (p : List Char) :
    endsAt (TrieNode.mk [] []) p = [] := by
  cases p with
  | nil => rfl
  | cons d ps => rw [endsAt_cons]; rfl

@[simp] theorem children_mk (c : List (Char × TrieNode)) (e : List Str) :
    (TrieNode.mk c e).children = c := rfl

@[simp] theorem ends_mk (c : List (Char × TrieNode)) (e : List Str) :
    (TrieNode.mk c e).ends = e := rfl

theorem lookupChild_setChild_same (l : List (Char × TrieNode)) (c : Char)
    (t : TrieNode) : lookupChild (setChild l c t) c = some t := by
  induction l with
  | nil => simp [setChild, lookupChild]
  | cons p rest ih =>
    rcases p with ⟨c1, t1⟩
    by_cases h : c1 = c
    · simp [setChild, lookupChild, h]
    · simp [setChild, lookupChild, h, ih]

theorem lookupChild_setChild_other (l : List (Char × TrieNode)) (c d : Char)
    (t : TrieNode) (h : d ≠ c) :
    lookupChild (setChild l c t) d = lookupChild l d := by
  have hcd : ¬ c = d := fun hh => h hh.symm
  induction l with
  | nil =>
    simp only [setChild, lookupChild, if_neg hcd]
  | cons p rest ih =>
    rcases p with ⟨c1, t1⟩
    by_cases h1 : c1 = c
    · have hc1d : ¬ c1 = d := by rw [h1]; exact hcd
      simp only [setChild, if_pos h1, lookupChild, if_neg hcd, if_neg hc1d]
    · by_cases h2 : c1 = d
      · simp only [setChild, if_neg h1, lookupChild, if_pos h2]
      · simp only [setChild, if_neg h1, lookupChild, if_neg h2, ih]

theorem endsAt_insertAux : ∀ (cs : List Char) (n : TrieNode) (w : Str)
    (p : List Char),
    endsAt (insertAux n cs w) p
      = if p = cs then fifoPush (endsAt n cs) w else endsAt n p := by
  intro cs
  induction cs with
  | nil =>
    intro n w p
    cases p with
    | nil => simp [insertAux, endsAt_nil]
    | cons d ps => simp [insertAux, endsAt_cons]
  | cons c cs ih =>
    intro n w p
    cases p with
    | nil => simp [insertAux, endsAt_nil]
    | cons d ps =>
      by_cases hdc : d = c
      · subst hdc
        rw [insertAux, endsAt_cons]
        simp only [children_mk, lookupChild_setChild_same]
        rw [ih]
        cases hlc : lookupChild n.children d with
        | some ch0 =>
          simp only [hlc, Option.getD_some, endsAt_cons, List.cons.injEq,
            true_and]
        | none =>
          simp only [hlc, Option.getD_none, endsAt_cons, endsAt_empty_node,
            List.cons.injEq, true_and]
      · rw [insertAux, endsAt_cons]
        simp only [children_mk, lookupChild_setChild_other _ _ _ _ hdc]
        rw [if_neg (by simp [hdc]), endsAt_cons]

theorem fifoFold_cons (w : Str) (ws : List Str) (p : List Char)
    (e : List Str) :
    fifoFold (w :: ws) p e
      = fifoFold ws p (if lowerStr w = p then fifoPush e w else e) := by
  rw [fifoFold, fifoFold, List.foldl_cons]

theorem endsAt_foldl (ws : List Str) : ∀ (t0 : Trie) (p : List Char),
    endsAt (ws.foldl Trie.insert t0).root p
      = fifoFold ws p (endsAt t0.root p) := by
  induction ws with
  | nil => intro t0 p; rfl
  | cons w ws ih =>
    intro t0 p
    rw [List.foldl_cons, ih (t0.insert w) p, fifoFold_cons]
    have hstep : endsAt (t0.insert w).root p
        = if lowerStr w = p then fifoPush (endsAt t0.root p) w
          else endsAt t0.root p := by
      rw [Trie.insert]
      rw [show (⟨insertAux t0.root (lowerStr w) w⟩ : Trie).root
          = insertAux t0.root (lowerStr w) w from rfl]
      rw [endsAt_insertAux]
      by_cases hp : p = lowerStr w
      · rw [if_pos hp, if_pos hp.symm, hp]
      · rw [if_neg hp, if_neg (fun hh => hp hh.symm)]
    rw [hstep]

theorem accDedup_length_lower : ∀ (ws : List Str) (acc : List Str),
    acc.length ≤ (accDedup acc ws).length := by
  intro ws
  induction ws with
  | nil => intro acc; exact Nat.le_refl _
  | cons w ws ih =>
    intro acc
    rw [accDedup]
    by_cases hw : w ∈ acc
    · rw [if_pos hw]; exact ih acc
    · rw [if_neg hw]
      refine Nat.le_trans ?_ (ih (acc ++ [w]))
      simp

theorem fifoFold_no_evict : ∀ (ws : List Str) (p : List Char) (e : List Str),
    (accDedup e (ws.filter (fun w => decide (lowerStr w = p)))).length ≤ 20 →
    fifoFold ws p e
      = accDedup e (ws.filter (fun w => decide (lowerStr w = p))) := by
  intro ws
  induction ws with
  | nil => intro p e _; rfl
  | cons w ws ih =>
    intro p e hcap
    by_cases hm : lowerStr w = p
    · have hfil : (w :: ws).filter (fun v => decide (lowerStr v = p))
          = w :: ws.filter (fun v => decide (lowerStr v = p)) := by
        simp [List.filter_cons, hm]
      rw [hfil] at hcap ⊢
      rw [accDedup] at hcap ⊢
      have hstep : fifoFold (w :: ws) p e = fifoFold ws p (fifoPush e w) := by
        rw [fifoFold_cons, if_pos hm]
      rw [hstep]
      by_cases hw : w ∈ e
      · rw [if_pos hw] at hcap ⊢
        rw [show fifoPush e w = e by rw [fifoPush, if_pos hw]]
        exact ih p e hcap
      · rw [if_neg hw] at hcap ⊢
        have hlen : (e ++ [w]).length ≤ 20 :=
          Nat.le_trans (accDedup_length_lower _ _) hcap
        rw [show fifoPush e w = e ++ [w] by
          rw [fifoPush, if_neg hw, if_neg (by omega)]]
        exact ih p (e ++ [w]) hcap
    · have hfil : (w :: ws).filter (fun v => decide (lowerStr v = p))
          = ws.filter (fun v => decide (lowerStr v = p)) := by
        simp [List.filter_cons, hm]
      rw [hfil] at hcap ⊢
      have hstep : fifoFold (w :: ws) p e = fifoFold ws p e := by
        rw [fifoFold_cons, if_neg hm]
      rw [hstep]
      exact ih p e hcap

theorem endsAt_mem_findNode (n : TrieNode) (p : List Char) (x : Str)
    (h : x ∈ endsAt n p) :
    ∃ m, findNode n p = some m ∧ x ∈ m.ends := by
  cases hf : findNode n p with
  | none =>
    rw [endsAt, hf] at h
    cases h
  | some m =>
    rw [endsAt, hf] at h
    exact ⟨m, rfl, h⟩

theorem findNode_append : ∀ (xs ys : List Char) (n : TrieNode),
    findNode n (xs ++ ys)
      = match findNode n xs with
        | none => none
        | some m => findNode m ys := by
  intro xs
  induction xs with
  | nil => intro ys n; rfl
  | cons c xs ih =>
    intro ys n
    rw [List.cons_append]
    simp only [findNode]
    cases lookupChild n.children c with
    | none => rfl
    | some t => exact ih ys t

theorem subtreeList_eq (l : List (Char × TrieNode)) :
    subtree.subtreeList l = (l.map Prod.snd).flatMap subtree := by
  induction l with
  | nil => rfl
  | cons p rest ih =>
    rcases p with ⟨c, t⟩
    rw [subtree.subtreeList, List.map_cons, List.flatMap_cons, ih]

theorem mem_subtree_self (n : TrieNode) : n ∈ subtree n := by
  cases n with
  | mk ch e =>
    rw [subtree]
    exact List.mem_cons_self _ _

theorem lookupChild_mem : ∀ (l : List (Char × TrieNode)) (c : Char)
    (t : TrieNode), lookupChild l c = some t → t ∈ l.map Prod.snd := by
  intro l
  induction l with
  | nil => intro c t h; cases h
  | cons p rest ih =>
    rcases p with ⟨c1, t1⟩
    intro c t h
    rw [lookupChild] at h
    by_cases hc : c1 = c
    · rw [if_pos hc] at h
      cases h
      exact List.mem_cons_self _ _
    · rw [if_neg hc] at h
      exact List.mem_cons_of_mem _ (ih c t h)

theorem findNode_mem_subtree : ∀ (cs : List Char) (n m : TrieNode),
    findNode n cs = some m → m ∈ subtree n := by
  intro cs
  induction cs with
  | nil =>
    intro n m h
    cases h
    exact mem_subtree_self n
  | cons c cs ih =>
    intro n m h
    rw [findNode] at h
    cases hlc : lookupChild n.children c with
    | none => rw [hlc] at h; cases h
    | some t =>
      rw [hlc] at h
      have hm : m ∈ subtree t := ih t m h
      have ht : t ∈ n.children.map Prod.snd := lookupChild_mem _ c t hlc
      have hms : m ∈ subtree.subtreeList n.children := by
        rw [subtreeList_eq]
        exact List.mem_flatMap.mpr ⟨t, ht, hm⟩
      cases n with
      | mk ch e =>
        rw [subtree]
        exact List.mem_cons_of_mem _ hms

theorem mem_subtree_bfsOrder :
    ∀ (N : Nat) (q : List TrieNode), queueSize q ≤ N →
      ∀ x, x ∈ q.flatMap subtree → x ∈ bfsOrder q := by
  intro N
  induction N with
  | zero =>
    intro q h x hx
    cases q with
    | nil => cases hx
    | cons n qs =>
      have := queueSize_cons_pos n qs
      omega
  | succ N ih =>
    intro q h x hx
    cases q with
    | nil => cases hx
    | cons n qs =>
      rw [bfsOrder_cons]
      rw [List.flatMap_cons] at hx
      have hsz : queueSize (qs ++ childNodes n) ≤ N := by
        have := queueSize_pop n qs
        omega
      rcases List.mem_append.mp hx with hsub | hqs
      · cases n with
        | mk ch e =>
          rw [subtree] at hsub
          rcases List.mem_cons.mp hsub with hxn | hxl
          · rw [hxn]
            exact List.mem_cons_self _ _
          · refine List.mem_cons_of_mem _ (ih _ hsz x ?_)
            rw [List.flatMap_append]
            refine List.mem_append_right _ ?_
            rw [subtreeList_eq] at hxl
            exact hxl
      · refine List.mem_cons_of_mem _ (ih _ hsz x ?_)
        rw [List.flatMap_append]
        exact List.mem_append_left _ hqs

theorem collectWhile_all (limit : Nat) : ∀ (ns : List TrieNode)
    (acc : List Str),
    acc.length + ((ns.map (fun m => m.ends.length)).sum) ≤ limit →
    collectWhile limit ns acc = acc ++ ns.flatMap TrieNode.ends := by
  intro ns
  induction ns with
  | nil =>
    intro acc _
    rw [collectWhile_nil, List.flatMap_nil, List.append_nil]
  | cons n ns ih =>
    intro acc h
    rw [List.map_cons, List.sum_cons] at h
    by_cases hlt : acc.length < limit
    · rw [collectWhile, if_pos hlt, ih (acc ++ n.ends)
        (by rw [List.length_append]; omega)]
      rw [List.flatMap_cons, List.append_assoc]
    · have hz : n.ends.length = 0 ∧ ((ns.map (fun m => m.ends.length)).sum) = 0 := by
        constructor <;> omega
      have hflat : (n :: ns).flatMap TrieNode.ends = [] := by
        apply List.eq_nil_of_length_eq_zero
        rw [List.length_flatMap, List.map_cons, List.sum_cons]
        have : List.map (List.length ∘ TrieNode.ends) ns
            = ns.map (fun m => m.ends.length) := by
          simp [Function.comp_def]
        rw [this]
        have := hz.1
        have := hz.2
        simp only [Function.comp_apply]
        omega
      rw [collectWhile, if_neg hlt, hflat, List.append_nil]

/-- C6 counterexample: 21 distinct case-variants of "aaaaa" all end at the
same trie node, whose 20-entry FIFO list evicts the first inserted title
"AAAAA".  Searching with the full title as prefix and limit 100 (at least
the 20 matching titles) does not return "AAAAA", although it was
inserted. -/
theorem C6_search_counterexample :
    str "AAAAA" ∈ evictWords ∧
    str "AAAAA" <+: str "AAAAA" ∧
    matchesOf (buildTrie evictWords) (str "AAAAA") ≤ 100 ∧
    str "AAAAA" ∉ (buildTrie evictWords).prefix_search (str "AAAAA") 100 := by
  refine ⟨by decide, List.prefix_refl _, by decide, by decide⟩

/-- C6 (amended): for every list of inserted titles, every title T among
them and every prefix P of T, if at most 20 distinct inserted titles share
T's lowercased form (so T survives the terminal node's capped FIFO list)
then `prefix_search(P, limit)` with limit at least the number of matching
titles returns a list that contains T. -/
theorem C6_search_contains_inserted (ws : List Str) (T P : Str) (limit : Nat)
    (hT : T ∈ ws) (hP : P <+: T)
    (hcap : (accDedup []
      (ws.filter (fun w => decide (lowerStr w = lowerStr T)))).length ≤ 20)
    (hlim : matchesOf (buildTrie ws) P ≤ limit) :
    T ∈ (buildTrie ws).prefix_search P limit := by
  have hends : T ∈ endsAt (buildTrie ws).root (lowerStr T) := by
    rw [show buildTrie ws = ws.foldl Trie.insert emptyTrie from rfl,
      endsAt_foldl,
      show endsAt emptyTrie.root (lowerStr T) = [] from
        endsAt_empty_node _,
      fifoFold_no_evict ws (lowerStr T) [] hcap]
    exact accDedup_mem _ [] T
      (Or.inr (List.mem_filter.mpr ⟨hT, by simp⟩))
  obtain ⟨M, hM, hTM⟩ := endsAt_mem_findNode _ _ _ hends
  have hPmap : lowerStr P <+: lowerStr T := List.IsPrefix.map Char.toLower hP
  obtain ⟨rest, hrest⟩ := hPmap
  rw [← hrest, findNode_append] at hM
  cases hN : findNode (buildTrie ws).root (lowerStr P) with
  | none =>
    rw [hN] at hM
    cases hM
  | some N =>
    rw [hN] at hM
    have hMst : M ∈ subtree N := findNode_mem_subtree rest N M hM
    have hMbfs : M ∈ bfsOrder [N] := by
      refine mem_subtree_bfsOrder (queueSize [N]) [N] (Nat.le_refl _) M ?_
      rw [List.flatMap_cons, List.flatMap_nil, List.append_nil]
      exact hMst
    have hsum : ((bfsOrder [N]).map (fun m => m.ends.length)).sum ≤ limit := by
      rw [matchesOf, hN] at hlim
      exact hlim
    have hraw : bfsCollect limit [N] []
        = (bfsOrder [N]).flatMap TrieNode.ends := by
      rw [bfsCollect_eq_collectWhile,
        collectWhile_all limit _ [] (by simpa using hsum),
        List.nil_append]
    have hTraw : T ∈ (bfsOrder [N]).flatMap TrieNode.ends :=
      List.mem_flatMap.mpr ⟨M, hMbfs, hTM⟩
    have hrawlen : ((bfsOrder [N]).flatMap TrieNode.ends).length ≤ limit := by
      rw [List.length_flatMap]
      have hmaps : List.map (List.length ∘ TrieNode.ends) (bfsOrder [N])
          = (bfsOrder [N]).map (fun m => m.ends.length) := by
        simp [Function.comp_def]
      rw [hmaps]
      exact hsum
    have hlimpos : 0 < limit :=
      Nat.lt_of_lt_of_le
        (List.length_pos.mpr (List.ne_nil_of_mem hTraw)) hrawlen
    simp only [Trie.prefix_search, hN]
    rw [hraw, dedupe_eq_accDedup_take limit _ []
      (by simpa using hlimpos)]
    have hacc : (accDedup [] ((bfsOrder [N]).flatMap TrieNode.ends)).length
        ≤ limit := by
      have h1 := accDedup_length_le ((bfsOrder [N]).flatMap TrieNode.ends) []
      rw [List.length_nil, Nat.zero_add] at h1
      exact Nat.le_trans h1 hrawlen
    rw [List.take_of_length_le hacc]
    exact accDedup_mem _ [] T (Or.inr hTraw)

/-- Witness for C6: "Beta" and "alpha" inserted; prefix "Be" of "Beta" with
limit 30 returns a list containing "Beta". -/
theorem C6_search_contains_inserted_witness :
    str "Beta" ∈ (buildTrie [str "Beta", str "alpha"]).prefix_search
      (str "Be") 30 :=
  C6_search_contains_inserted [str "Beta", str "alpha"] (str "Beta")
    (str "Be") 30 (by decide) (by decide) (by decide) (by decide)

end MusicPlayer
